import Mathlib

/-!
Verification of the dependency-graph resolution engine of the Vizualizator
repository (src/main.py), shallowly embedded in Lean 4.

Strings are modelled as Lean `String` (a list of characters).  Python's
per-character classification functions are Unicode-aware
(`"Δ".isupper()` and `"Δ".isalpha()` are `True`, `"Δ".lower()` is
`"δ"`); full Unicode category and case tables are outside a shallow
embedding, so those functions are modelled exactly on the ASCII range:
`pyIsSpace` is Python's whitespace on ASCII (tab through carriage
return, the separator controls `U+001C`-`U+001F`, and space),
`pyIsUpperAlpha` models `s.isupper() and s.isalpha()` (on ASCII: `s` is
nonempty and all of `A`-`Z`), and `pyLower` models `str.lower()` (on
ASCII: `A`-`Z` mapped down).  Every theorem whose truth depends on this
classification carries an explicit `asciiOnly` hypothesis (or a
well-formedness hypothesis that already confines it to such lines), so
each theorem speaks only where the embedding agrees with the program;
the Unicode gap itself is what makes the loader accept identifiers such
as `Δ` that its own error message calls out as non-Latin.
Percent-encoding (`pyQuote`), substring and suffix tests are faithful
for all strings.

Python dictionaries are modelled as association lists with Python's
insertion-order semantics: assigning to an existing key replaces its value
in place, assigning to a fresh key appends at the end.  Python exceptions
are modelled with `Except`; the error payload of the repository loader is
the pair (offending 1-based line number, message), mirroring the
`ValueError` messages raised by `load_test_repo`.

The recursive DFS of `build_dependency_graph_dfs` is embedded with an
explicit fuel parameter (the Python recursion has no such parameter; the
fuel is the standard device for embedding general recursion).  The driver
`get_full_dependency_graph_test` runs it with fuel `repo.length + 1`,
which is proven sufficient: the result is stable under any larger fuel.
The `expanded` field of `DfsState` is ghost instrumentation recording, in
order, the packages whose dependency list was fetched from the repository
and recursed into (the final branch of the Python function); it is written
but never read by the algorithm.
-/

/-- Python's whitespace predicate restricted to the ASCII range: the
characters `U+0009`-`U+000D` (tab, newline, vertical tab, form feed,
carriage return), the separator controls `U+001C`-`U+001F`, and space.
Python additionally treats some non-ASCII characters as whitespace;
theorems that depend on this predicate carry an `asciiOnly` hypothesis. -/
def pyIsSpace (c : Char) : Bool :=
  c = ' ' || (0x09 ≤ c.toNat && c.toNat ≤ 0x0D) ||
    (0x1C ≤ c.toNat && c.toNat ≤ 0x1F)

/-- Strip whitespace from both ends of a character list
(models Python `str.strip()`; exact on ASCII text). -/
def stripChars (l : List Char) : List Char :=
  ((l.dropWhile pyIsSpace).reverse.dropWhile pyIsSpace).reverse

/-- Models Python `str.strip()`; exact on ASCII text. -/
def pyStrip (s : String) : String :=
  String.mk (stripChars s.data)

/-- All characters of the string are ASCII: the domain on which the
embedded models of Python's Unicode-aware string methods (`strip`,
`split`, `isupper`/`isalpha`, `lower`) agree with the program exactly. -/
def asciiOnly (s : String) : Bool :=
  s.data.all (fun c => c.toNat < 128)

/-- Split a character list at the first colon: models
Python `line.split(":", 1)` under the guard that a colon is present
(the first component is the text before the first colon, the second the
text after it). -/
def splitColon : List Char → List Char × List Char
  | [] => ([], [])
  | c :: cs =>
    if c = ':' then ([], cs)
    else
      let r := splitColon cs
      (c :: r.1, r.2)

/-- Accumulator form of whitespace splitting: `acc` is the reversed
current word. -/
def pyWordsAux : List Char → List Char → List (List Char)
  | acc, [] => if acc.isEmpty then [] else [acc.reverse]
  | acc, c :: cs =>
    if pyIsSpace c then
      if acc.isEmpty then pyWordsAux [] cs
      else acc.reverse :: pyWordsAux [] cs
    else pyWordsAux (c :: acc) cs

/-- Models Python `str.split()` with no separator: maximal runs of
non-whitespace characters, with empty pieces dropped; exact on ASCII
text. -/
def pyWords (l : List Char) : List (List Char) :=
  pyWordsAux [] l

/-- Models Python `s.isupper() and s.isalpha()`.  On ASCII strings the
conjunction holds exactly when `s` is nonempty and every character is an
uppercase Latin letter `A`-`Z` (the only cased ASCII characters are the
letters).  Python's Unicode tables additionally accept non-Latin
uppercase alphabetic characters such as `Δ`; theorems that depend on
this predicate carry an `asciiOnly` hypothesis or exclude such lines. -/
def pyIsUpperAlpha (s : String) : Bool :=
  !(s.data.isEmpty) && s.data.all Char.isUpper

/-- First-match lookup in an association list (Python `d[k]` / `k in d`;
keys are unique in every list built by `dinsert`). -/
def alookup {α : Type} : List (String × α) → String → Option α
  | [], _ => none
  | e :: es, k => if e.1 = k then some e.2 else alookup es k

/-- The key list of an association list, in insertion order. -/
def keysOf {α : Type} (g : List (String × α)) : List String :=
  g.map Prod.fst

/-- Python dictionary assignment `d[k] = v`: replace the value in place if
the key is present, otherwise append the pair at the end. -/
def dinsert {α : Type} (g : List (String × α)) (k : String) (v : α) :
    List (String × α) :=
  if k ∈ keysOf g then
    g.map (fun e => if e.1 = k then (k, v) else e)
  else
    g ++ [(k, v)]

/-- Models Python `list.index(x)` (index of the first occurrence). -/
def pyIndex (x : String) : List String → Nat
  | [] => 0
  | y :: ys => if y = x then 0 else pyIndex x ys + 1

/-- Models Python `str.lower()`; exact on ASCII text (`A`-`Z` mapped to
`a`-`z`, all other ASCII characters unchanged).  Python's `lower` also
case-maps non-ASCII characters (`Δ` to `δ`); the URL-construction
theorem therefore restricts the package identifier to ASCII. -/
def pyLower (s : String) : String :=
  String.mk (s.data.map Char.toLower)

/-- The UTF-8 byte sequence of a character (used by percent-encoding). -/
def utf8Bytes (c : Char) : List Nat :=
  let n := c.toNat
  if n < 0x80 then [n]
  else if n < 0x800 then [0xC0 + n / 0x40, 0x80 + n % 0x40]
  else if n < 0x10000 then
    [0xE0 + n / 0x1000, 0x80 + (n / 0x40) % 0x40, 0x80 + n % 0x40]
  else
    [0xF0 + n / 0x40000, 0x80 + (n / 0x1000) % 0x40,
     0x80 + (n / 0x40) % 0x40, 0x80 + n % 0x40]

/-- Uppercase hexadecimal digit. -/
def hexDig (d : Nat) : Char :=
  if d < 10 then Char.ofNat ('0'.toNat + d) else Char.ofNat ('A'.toNat + d - 10)

/-- Two-digit uppercase hexadecimal rendering of a byte. -/
def hex2 (n : Nat) : String :=
  String.mk [hexDig (n / 16 % 16), hexDig (n % 16)]

/-- Characters left unescaped by `urllib.parse.quote` with its default
`safe="/"`: ASCII letters, digits, `_`, `.`, `-`, `~`, and `/`. -/
def quoteSafe (c : Char) : Bool :=
  c.isAlpha || c.isDigit || c = '_' || c = '.' || c = '-' || c = '~' || c = '/'

/-- Percent-encode one character as `urllib.parse.quote` does. -/
def quoteChar (c : Char) : String :=
  if quoteSafe c then String.mk [c]
  else String.join ((utf8Bytes c).map (fun b => "%" ++ hex2 b))

/-- Models `urllib.parse.quote(s)` (default `safe="/"`). -/
def pyQuote (s : String) : String :=
  String.join (s.data.map quoteChar)

/-- Models the Python substring test `needle in hay`. -/
def strContains (hay needle : String) : Bool :=
  (List.range (hay.data.length + 1)).any
    (fun i => needle.data.isPrefixOf (hay.data.drop i))

/-- Models Python `s.endswith(suffix)`. -/
def strEndsWith (s suffix : String) : Bool :=
  suffix.data.isSuffixOf s.data

/-- Embedding of `fetch_nuspec_url` (src/main.py lines 68-77). -/
def fetch_nuspec_url (package version base_repo_url : String) : String :=
  let lower_pkg := pyLower package
  let encoded_pkg := pyQuote lower_pkg
  let encoded_ver := pyQuote version
  if strContains base_repo_url "nuget.org" then
    "https://api.nuget.org/v3-flatcontainer/" ++ encoded_pkg ++ "/" ++
      encoded_ver ++ "/" ++ encoded_pkg ++ ".nuspec"
  else
    let base :=
      if strEndsWith base_repo_url "/" then base_repo_url
      else base_repo_url ++ "/"
    base ++ encoded_pkg ++ "/" ++ encoded_ver ++ "/" ++ encoded_pkg ++
      ".nuspec"

/-- Outcome of processing one line of a test-repository file:
skipped (blank or comment), an error (line number and message, as in the
`ValueError`s of `load_test_repo`), or a parsed declaration. -/
inductive LineResult where
  | skip : LineResult
  | err : Nat × String → LineResult
  | decl : String → List String → LineResult
deriving DecidableEq

/-- The stripped text of a line (`line = line.strip()` in the loader). -/
def lineStripped (line : String) : List Char :=
  (pyStrip line).data

/-- A line dropped by the loader: blank after stripping, or a comment
(`not line or line.startswith("#")`). -/
def lineSkipped (line : String) : Bool :=
  (lineStripped line).isEmpty || ((lineStripped line).head? == some '#')

/-- The stripped package identifer of a line
(`pkg, deps_part = line.split(":", 1); pkg = pkg.strip()`). -/
def linePkg (line : String) : String :=
  pyStrip (String.mk (splitColon (lineStripped line)).1)

/-- The dependency tokens of a line (`deps = deps_part.split()` followed by
`[d.strip() for d in deps if d.strip()]`). -/
def lineDeps (line : String) : List String :=
  ((pyWords (splitColon (lineStripped line)).2).map
    (fun d => pyStrip (String.mk d))).filter (fun d => !(d.data.isEmpty))

/-- Processing of a single line of `load_test_repo`
(src/main.py lines 118-135), at 1-based line number `n`; the guards appear
in the order of the source. -/
def parseRepoLine (n : Nat) (line : String) : LineResult :=
  if lineSkipped line then .skip
  else if !((lineStripped line).contains ':') then
    .err (n, "Invalid format in test repo: missing colon")
  else if (linePkg line).data.isEmpty then
    .err (n, "Empty package name in test repo")
  else if !(pyIsUpperAlpha (linePkg line)) then
    .err (n, "Package name must be uppercase Latin letters")
  else if (lineDeps line).any (fun d => !(pyIsUpperAlpha d)) then
    .err (n, "Dependency must be uppercase Latin letter")
  else .decl (linePkg line) (lineDeps line)

/-- A line on which `load_test_repo` raises: the line is retained (not
blank, not a comment) and lacks a colon, has an empty package identifier,
or has a package or dependency token that is not solely uppercase Latin
letters. -/
def lineMalformed (line : String) : Bool :=
  !(lineSkipped line) &&
    (!((lineStripped line).contains ':') ||
     (linePkg line).data.isEmpty ||
     !(pyIsUpperAlpha (linePkg line)) ||
     (lineDeps line).any (fun d => !(pyIsUpperAlpha d)))

/-- The declaration carried by a well-formed retained line, if any. -/
def lineDecl (line : String) : Option (String × List String) :=
  if lineSkipped line then none
  else if !((lineStripped line).contains ':') then none
  else if (linePkg line).data.isEmpty then none
  else if !(pyIsUpperAlpha (linePkg line)) then none
  else if (lineDeps line).any (fun d => !(pyIsUpperAlpha d)) then none
  else some (linePkg line, lineDeps line)

/-- The line-by-line loop of `load_test_repo`, threading the repository
accumulator and the 1-based line counter. -/
def loadLines (repo : List (String × List String)) (n : Nat) :
    List String → Except (Nat × String) (List (String × List String))
  | [] => .ok repo
  | l :: ls =>
    match parseRepoLine n l with
    | .skip => loadLines repo (n + 1) ls
    | .err e => .error e
    | .decl p d => loadLines (dinsert repo p d) (n + 1) ls

/-- Embedding of `load_test_repo` (src/main.py lines 113-138), taking the
file's lines as input.  An error aborts the whole load: no repository
value is produced at all. -/
def load_test_repo (lines : List String) :
    Except (Nat × String) (List (String × List String)) :=
  loadLines [] 1 lines

/-- The parsed declarations of a line list, in order (skipped and
malformed lines contribute nothing). -/
def declsOf (lines : List String) : List (String × List String) :=
  lines.filterMap lineDecl

/-- Fold a declaration list into a dictionary by repeated assignment. -/
def applyDecls (repo : List (String × List String))
    (ds : List (String × List String)) : List (String × List String) :=
  ds.foldl (fun r e => dinsert r e.1 e.2) repo

/-- The last element of a list, if any. -/
def lastOpt {α : Type} : List α → Option α
  | [] => none
  | x :: xs => some (match lastOpt xs with | none => x | some y => y)

/-- The mutable state threaded through `build_dependency_graph_dfs`:
the global visited set, the current DFS path, the dependency graph being
built, and the collected cycles.  `expanded` is ghost instrumentation:
the packages whose dependency list was fetched and recursed into, in
order (the final branch of the function); the algorithm never reads it. -/
structure DfsState where
  visited : List String
  path : List String
  graph : List (String × List String)
  cycles : List (List String)
  expanded : List String

/-- Embedding of `build_dependency_graph_dfs` (src/main.py lines 142-184).
The Python function mutates its arguments and returns `None`; here the
state is passed and returned explicitly, and the extra fuel argument
bounds the recursion depth (fuel `repo.length + 1` is sufficient, and
exhausted fuel returns the state unchanged). -/
def build_dependency_graph_dfs :
    Nat → String → List (String × List String) → DfsState → DfsState
  | 0, _, _, st => st
  | fuel + 1, start_pkg, repo, st =>
    if start_pkg ∈ st.visited then st
    else
      match alookup repo start_pkg with
      | none =>
        { st with graph := dinsert st.graph start_pkg [],
                  visited := start_pkg :: st.visited }
      | some deps =>
        if start_pkg ∈ st.path then
          { st with
              cycles := st.cycles ++
                [st.path.drop (pyIndex start_pkg st.path) ++ [start_pkg]],
              graph := dinsert st.graph start_pkg deps,
              visited := start_pkg :: st.visited }
        else
          let st1 : DfsState :=
            { st with visited := start_pkg :: st.visited,
                      path := st.path ++ [start_pkg],
                      graph := dinsert st.graph start_pkg deps,
                      expanded := st.expanded ++ [start_pkg] }
          let st2 :=
            deps.foldl (fun s d => build_dependency_graph_dfs fuel d repo s)
              st1
          { st2 with path := st2.path.dropLast }

/-- The freshly-initialized state of `get_full_dependency_graph_test`:
empty visited set, path, graph and cycle list. -/
def initDfsState : DfsState :=
  { visited := [], path := [], graph := [], cycles := [], expanded := [] }

/-- Embedding of `get_full_dependency_graph_test`
(src/main.py lines 187-193). -/
def get_full_dependency_graph_test (test_repo : List (String × List String))
    (root : String) : List (String × List String) × List (List String) :=
  let st :=
    build_dependency_graph_dfs (test_repo.length + 1) root test_repo
      initDfsState
  (st.graph, st.cycles)

/-- The number of repository entries whose key is not yet visited; the
fuel-adequacy measure of the DFS. -/
def remCount : List (String × List String) → List String → Nat
  | [], _ => 0
  | e :: es, vis => (if e.1 ∈ vis then 0 else 1) + remCount es vis

/-- Reachability from `root` by zero or more dependency edges of the
repository. -/
inductive Reach (repo : List (String × List String)) (root : String) :
    String → Prop
  | refl : Reach repo root root
  | step {a b : String} {l : List String} :
      Reach repo root a → alookup repo a = some l → b ∈ l →
      Reach repo root b

/-! ### Association-list lemmas -/

theorem alookup_mem {α : Type} :
    ∀ {g : List (String × α)} {k : String} {v : α},
      alookup g k = some v → (k, v) ∈ g := by
  intro g
  induction g with
  | nil => intro k v h; simp [alookup] at h
  | cons e es ih =>
    intro k v h
    simp only [alookup] at h
    by_cases he : e.1 = k
    · rw [if_pos he] at h
      injection h with h
      rcases e with ⟨k0, v0⟩
      simp only at he h
      subst he h
      exact List.mem_cons_self _ _
    · rw [if_neg he] at h
      exact List.mem_cons_of_mem _ (ih h)

theorem alookup_none {α : Type} :
    ∀ {g : List (String × α)} {k : String},
      alookup g k = none ↔ k ∉ keysOf g := by
  intro g
  induction g with
  | nil => intro k; simp [alookup, keysOf]
  | cons e es ih =>
    intro k
    simp only [alookup, keysOf, List.map_cons, List.mem_cons]
    by_cases he : e.1 = k
    · simp [he]
    · simp only [if_neg he]
      rw [ih]
      simp only [keysOf]
      constructor
      · intro h hk
        rcases hk with hk | hk
        · exact he hk.symm
        · exact h hk
      · intro h hk
        exact h (Or.inr hk)

theorem mem_keysOf {α : Type} :
    ∀ {g : List (String × α)} {k : String},
      k ∈ keysOf g ↔ ∃ v, (k, v) ∈ g := by
  intro g
  induction g with
  | nil => intro k; simp [keysOf]
  | cons e es ih =>
    rcases e with ⟨a, b⟩
    intro k
    simp only [keysOf, List.map_cons, List.mem_cons] at *
    constructor
    · rintro (h | h)
      · exact ⟨b, Or.inl (by rw [h])⟩
      · rcases ih.1 h with ⟨v, hv⟩
        exact ⟨v, Or.inr hv⟩
    · rintro ⟨v, hv | hv⟩
      · exact Or.inl (congrArg Prod.fst hv)
      · exact Or.inr (ih.2 ⟨v, hv⟩)

theorem mem_dinsert {α : Type} {g : List (String × α)} {k : String}
    {v : α} {e : String × α} (h : e ∈ dinsert g k v) :
    e ∈ g ∨ e = (k, v) := by
  unfold dinsert at h
  split at h
  · rcases List.mem_map.1 h with ⟨e0, he0, heq⟩
    by_cases h0 : e0.1 = k
    · rw [if_pos h0] at heq
      exact Or.inr heq.symm
    · rw [if_neg h0] at heq
      exact Or.inl (heq ▸ he0)
  · rcases List.mem_append.1 h with h | h
    · exact Or.inl h
    · simp only [List.mem_singleton] at h
      exact Or.inr h

theorem keysOf_replace {α : Type} (g : List (String × α)) (k : String)
    (v : α) :
    keysOf (g.map (fun e => if e.1 = k then (k, v) else e)) = keysOf g := by
  induction g with
  | nil => rfl
  | cons e es ih =>
    simp only [List.map_cons, keysOf] at *
    by_cases h0 : e.1 = k
    · rw [if_pos h0]
      simp only [List.map_cons]
      rw [h0, ih]
    · rw [if_neg h0]
      rw [ih]

theorem keys_dinsert {α : Type} {g : List (String × α)} {k : String}
    {v : α} {x : String} :
    x ∈ keysOf (dinsert g k v) ↔ x ∈ keysOf g ∨ x = k := by
  unfold dinsert
  split
  · next hk =>
    rw [keysOf_replace]
    constructor
    · exact Or.inl
    · rintro (h | h)
      · exact h
      · exact h ▸ hk
  · simp only [keysOf, List.map_append, List.mem_append, List.map_cons,
      List.map_nil, List.mem_cons, List.not_mem_nil, or_false]

theorem alookup_append_of_none {α : Type} {g : List (String × α)}
    {k : String} (h : alookup g k = none) (l : List (String × α)) :
    alookup (g ++ l) k = alookup l k := by
  induction g with
  | nil => simp
  | cons e es ih =>
    simp only [alookup] at h
    split at h
    · exact absurd h (by simp)
    · next he =>
      simp only [List.cons_append, alookup, if_neg he]
      exact ih h

theorem alookup_replace_self {α : Type} {g : List (String × α)}
    {k : String} (v : α) (hk : k ∈ keysOf g) :
    alookup (g.map (fun e => if e.1 = k then (k, v) else e)) k = some v := by
  induction g with
  | nil => simp [keysOf] at hk
  | cons e es ih =>
    by_cases h0 : e.1 = k
    · simp [alookup, h0]
    · simp only [List.map_cons, if_neg h0, alookup, if_neg h0]
      apply ih
      simp only [keysOf, List.map_cons, List.mem_cons] at hk
      rcases hk with hk | hk
      · exact absurd hk.symm h0
      · exact hk

theorem alookup_replace_ne {α : Type} {g : List (String × α)}
    {k k' : String} (v : α) (h : k' ≠ k) :
    alookup (g.map (fun e => if e.1 = k then (k, v) else e)) k' =
      alookup g k' := by
  induction g with
  | nil => rfl
  | cons e es ih =>
    by_cases h0 : e.1 = k
    · have h1 : ¬ ((k : String) = k') := fun hh => h hh.symm
      have h2 : ¬ (e.1 = k') := by rw [h0]; exact h1
      simp only [List.map_cons, if_pos h0, alookup, if_neg h1, if_neg h2]
      exact ih
    · simp only [List.map_cons, if_neg h0, alookup]
      by_cases h1 : e.1 = k'
      · rw [if_pos h1, if_pos h1]
      · rw [if_neg h1, if_neg h1]
        exact ih

theorem alookup_append_single_ne {α : Type} {g : List (String × α)}
    {k k' : String} (v : α) (h : k' ≠ k) :
    alookup (g ++ [(k, v)]) k' = alookup g k' := by
  induction g with
  | nil =>
    simp only [List.nil_append, alookup]
    rw [if_neg (fun hh : (k : String) = k' => h hh.symm)]
  | cons e es ih =>
    simp only [List.cons_append, alookup]
    by_cases h1 : e.1 = k'
    · rw [if_pos h1, if_pos h1]
    · rw [if_neg h1, if_neg h1]
      exact ih

theorem alookup_dinsert_self {α : Type} (g : List (String × α))
    (k : String) (v : α) : alookup (dinsert g k v) k = some v := by
  unfold dinsert
  split
  · next hk => exact alookup_replace_self v hk
  · next hk =>
    have hnone : alookup g k = none := alookup_none.2 hk
    rw [alookup_append_of_none hnone]
    simp [alookup]

theorem alookup_dinsert_ne {α : Type} {g : List (String × α)}
    {k k' : String} {v : α} (h : k' ≠ k) :
    alookup (dinsert g k v) k' = alookup g k' := by
  unfold dinsert
  split
  · exact alookup_replace_ne v h
  · exact alookup_append_single_ne v h

/-! ### Traversal invariants -/

theorem visit_succ (f : Nat) (p : String)
    (repo : List (String × List String)) (st : DfsState) :
    build_dependency_graph_dfs (f + 1) p repo st =
      if p ∈ st.visited then st
      else
        match alookup repo p with
        | none =>
          { st with graph := dinsert st.graph p [],
                    visited := p :: st.visited }
        | some deps =>
          if p ∈ st.path then
            { st with
                cycles := st.cycles ++
                  [st.path.drop (pyIndex p st.path) ++ [p]],
                graph := dinsert st.graph p deps,
                visited := p :: st.visited }
          else
            { (deps.foldl
                (fun s d => build_dependency_graph_dfs f d repo s)
                { st with visited := p :: st.visited,
                          path := st.path ++ [p],
                          graph := dinsert st.graph p deps,
                          expanded := st.expanded ++ [p] }) with
              path := (deps.foldl
                (fun s d => build_dependency_graph_dfs f d repo s)
                { st with visited := p :: st.visited,
                          path := st.path ++ [p],
                          graph := dinsert st.graph p deps,
                          expanded := st.expanded ++ [p] }).path.dropLast } :=
  rfl

theorem foldl_visit_pres (repo : List (String × List String)) (f : Nat)
    (P : DfsState → Prop)
    (h : ∀ (d : String) (s : DfsState),
      P s → P (build_dependency_graph_dfs f d repo s)) :
    ∀ (l : List String) (s : DfsState), P s →
      P (l.foldl (fun s d => build_dependency_graph_dfs f d repo s) s) := by
  intro l
  induction l with
  | nil => intro s hs; exact hs
  | cons d ds ih => intro s hs; exact ih _ (h d s hs)

theorem visit_path (repo : List (String × List String)) :
    ∀ (fuel : Nat) (p : String) (st : DfsState),
      (build_dependency_graph_dfs fuel p repo st).path = st.path := by
  intro fuel
  induction fuel with
  | zero => intro p st; rfl
  | succ f ih =>
    intro p st
    simp only [build_dependency_graph_dfs]
    by_cases hv : p ∈ st.visited
    · rw [if_pos hv]
    · rw [if_neg hv]
      rcases hr : alookup repo p with _ | deps
      · simp only [hr]
      · simp only [hr]
        by_cases hp : p ∈ st.path
        · rw [if_pos hp]
        · rw [if_neg hp]
          have hfold : ∀ (l : List String) (s : DfsState),
              (l.foldl (fun s d => build_dependency_graph_dfs f d repo s)
                s).path = s.path := by
            intro l
            induction l with
            | nil => intro s; rfl
            | cons d ds ihl =>
              intro s
              rw [List.foldl_cons, ihl, ih]
          show ((deps.foldl
            (fun s d => build_dependency_graph_dfs f d repo s)
            { st with visited := p :: st.visited, path := st.path ++ [p],
                      graph := dinsert st.graph p deps,
                      expanded := st.expanded ++ [p] }).path).dropLast =
              st.path
          rw [hfold]
          simp

theorem visit_visited_mono (repo : List (String × List String)) :
    ∀ (fuel : Nat) (p : String) (st : DfsState) {x : String},
      x ∈ st.visited →
      x ∈ (build_dependency_graph_dfs fuel p repo st).visited := by
  intro fuel
  induction fuel with
  | zero => intro p st x hx; exact hx
  | succ f ih =>
    intro p st x hx
    simp only [build_dependency_graph_dfs]
    by_cases hv : p ∈ st.visited
    · rw [if_pos hv]; exact hx
    · rw [if_neg hv]
      rcases hr : alookup repo p with _ | deps
      · simp only [hr]
        exact List.mem_cons_of_mem _ hx
      · simp only [hr]
        by_cases hp : p ∈ st.path
        · rw [if_pos hp]
          exact List.mem_cons_of_mem _ hx
        · rw [if_neg hp]
          exact foldl_visit_pres repo f (fun s => x ∈ s.visited)
            (fun d s hs => ih d s hs) deps _ (List.mem_cons_of_mem _ hx)

theorem visit_visited_self (repo : List (String × List String)) :
    ∀ (fuel : Nat) (p : String) (st : DfsState), 0 < fuel →
      p ∈ (build_dependency_graph_dfs fuel p repo st).visited := by
  intro fuel
  cases fuel with
  | zero => intro p st h; exact absurd h (Nat.lt_irrefl 0)
  | succ f =>
    intro p st _
    simp only [build_dependency_graph_dfs]
    by_cases hv : p ∈ st.visited
    · rw [if_pos hv]; exact hv
    · rw [if_neg hv]
      rcases hr : alookup repo p with _ | deps
      · simp only [hr]
        exact List.mem_cons_self _ _
      · simp only [hr]
        by_cases hp : p ∈ st.path
        · rw [if_pos hp]
          exact List.mem_cons_self _ _
        · rw [if_neg hp]
          exact foldl_visit_pres repo f (fun s => p ∈ s.visited)
            (fun d s hs => visit_visited_mono repo f d s hs) deps _
            (List.mem_cons_self _ _)

theorem remCount_mono (repo : List (String × List String))
    {v1 v2 : List String} (h : ∀ x, x ∈ v1 → x ∈ v2) :
    remCount repo v2 ≤ remCount repo v1 := by
  induction repo with
  | nil => exact Nat.le_refl _
  | cons e es ih =>
    by_cases h1 : e.1 ∈ v1
    · have h2 : e.1 ∈ v2 := h _ h1
      simp only [remCount, if_pos h1, if_pos h2]
      omega
    · by_cases h2 : e.1 ∈ v2
      · simp only [remCount, if_pos h2, if_neg h1]
        omega
      · simp only [remCount, if_neg h2, if_neg h1]
        omega

theorem remCount_cons_lt (repo : List (String × List String))
    {p : String} {vis : List String} {deps : List String}
    (hr : alookup repo p = some deps) (hv : p ∉ vis) :
    remCount repo (p :: vis) < remCount repo vis := by
  induction repo with
  | nil => simp [alookup] at hr
  | cons e es ih =>
    simp only [alookup] at hr
    by_cases h0 : e.1 = p
    · have h2 : e.1 ∈ p :: vis := by rw [h0]; exact List.mem_cons_self _ _
      have h1 : e.1 ∉ vis := by rw [h0]; exact hv
      have hmono : remCount es (p :: vis) ≤ remCount es vis :=
        remCount_mono es (fun x hx => List.mem_cons_of_mem _ hx)
      simp only [remCount, if_pos h2, if_neg h1]
      omega
    · rw [if_neg h0] at hr
      have hlt := ih hr
      by_cases h1 : e.1 ∈ vis
      · have h2 : e.1 ∈ p :: vis := List.mem_cons_of_mem _ h1
        simp only [remCount, if_pos h2, if_pos h1]
        omega
      · have h2 : e.1 ∉ p :: vis := by
          intro hx
          rcases List.mem_cons.1 hx with hx | hx
          · exact h0 hx
          · exact h1 hx
        simp only [remCount, if_neg h2, if_neg h1]
        omega

theorem remCount_nil (repo : List (String × List String)) :
    remCount repo [] = repo.length := by
  induction repo with
  | nil => rfl
  | cons e es ih =>
    simp only [remCount, if_neg (List.not_mem_nil e.1), List.length_cons]
    omega

theorem visit_fuel_succ (repo : List (String × List String)) :
    ∀ (f : Nat) (p : String) (st : DfsState),
      remCount repo st.visited < f →
      build_dependency_graph_dfs (f + 1) p repo st =
        build_dependency_graph_dfs f p repo st := by
  intro f
  induction f with
  | zero => intro p st h; exact absurd h (Nat.not_lt_zero _)
  | succ g ih =>
    intro p st h
    rw [visit_succ (g + 1) p repo st, visit_succ g p repo st]
    by_cases hv : p ∈ st.visited
    · rw [if_pos hv, if_pos hv]
    · rw [if_neg hv, if_neg hv]
      rcases hr : alookup repo p with _ | deps
      · simp only [hr]
      · simp only [hr]
        by_cases hp : p ∈ st.path
        · rw [if_pos hp, if_pos hp]
        · rw [if_neg hp, if_neg hp]
          have hst1 : remCount repo (p :: st.visited) < g := by
            have hlt := remCount_cons_lt repo hr hv
            omega
          have hfold : ∀ (l : List String) (s : DfsState),
              remCount repo s.visited < g →
              l.foldl
                (fun s d => build_dependency_graph_dfs (g + 1) d repo s)
                s =
              l.foldl (fun s d => build_dependency_graph_dfs g d repo s)
                s := by
            intro l
            induction l with
            | nil => intro s _; rfl
            | cons d ds ihl =>
              intro s hs
              simp only [List.foldl_cons]
              rw [ih d s hs]
              apply ihl
              have hm : ∀ x, x ∈ s.visited →
                  x ∈ (build_dependency_graph_dfs g d repo s).visited :=
                fun x hx => visit_visited_mono repo g d s hx
              exact Nat.lt_of_le_of_lt (remCount_mono repo hm) hs
          rw [hfold deps]
          exact hst1

theorem visit_fuel_stable (repo : List (String × List String)) :
    ∀ (f k : Nat) (p : String) (st : DfsState),
      remCount repo st.visited < f →
      build_dependency_graph_dfs (f + k) p repo st =
        build_dependency_graph_dfs f p repo st := by
  intro f k
  induction k with
  | zero => intro p st _; rfl
  | succ j ih =>
    intro p st h
    have h2 : remCount repo st.visited < f + j :=
      Nat.lt_of_lt_of_le h (Nat.le_add_right f j)
    calc build_dependency_graph_dfs (f + (j + 1)) p repo st
        = build_dependency_graph_dfs ((f + j) + 1) p repo st := rfl
      _ = build_dependency_graph_dfs (f + j) p repo st :=
          visit_fuel_succ repo (f + j) p st h2
      _ = build_dependency_graph_dfs f p repo st := ih p st h

theorem visit_graph_entries (repo : List (String × List String)) :
    ∀ (fuel : Nat) (p : String) (st : DfsState) {k : String}
      {v : List String},
      (k, v) ∈ (build_dependency_graph_dfs fuel p repo st).graph →
      (k, v) ∈ st.graph ∨ alookup repo k = some v ∨
        (alookup repo k = none ∧ v = []) := by
  intro fuel
  induction fuel with
  | zero => intro p st k v h; exact Or.inl h
  | succ f ih =>
    intro p st k v h
    rw [visit_succ] at h
    by_cases hv : p ∈ st.visited
    · rw [if_pos hv] at h; exact Or.inl h
    · rw [if_neg hv] at h
      rcases hr : alookup repo p with _ | deps
      · simp only [hr] at h
        rcases mem_dinsert h with h | h
        · exact Or.inl h
        · simp only [Prod.mk.injEq] at h
          obtain ⟨hk, hv2⟩ := h
          subst hk; subst hv2
          exact Or.inr (Or.inr ⟨hr, rfl⟩)
      · simp only [hr] at h
        by_cases hp : p ∈ st.path
        · rw [if_pos hp] at h
          rcases mem_dinsert h with h | h
          · exact Or.inl h
          · simp only [Prod.mk.injEq] at h
            obtain ⟨hk, hv2⟩ := h
            subst hk; subst hv2
            exact Or.inr (Or.inl hr)
        · rw [if_neg hp] at h
          have hP := foldl_visit_pres repo f
            (fun s => ∀ k1 v1, (k1, v1) ∈ s.graph →
              (k1, v1) ∈ st.graph ∨ alookup repo k1 = some v1 ∨
                (alookup repo k1 = none ∧ v1 = []))
            (fun d s hs k1 v1 h1 => by
              rcases ih d s h1 with h1 | h1 | h1
              · exact hs k1 v1 h1
              · exact Or.inr (Or.inl h1)
              · exact Or.inr (Or.inr h1))
            deps
            { st with visited := p :: st.visited, path := st.path ++ [p],
                      graph := dinsert st.graph p deps,
                      expanded := st.expanded ++ [p] }
            (by
              intro k1 v1 h1
              rcases mem_dinsert h1 with h1 | h1
              · exact Or.inl h1
              · simp only [Prod.mk.injEq] at h1
                obtain ⟨hk, hv2⟩ := h1
                subst hk; subst hv2
                exact Or.inr (Or.inl hr))
          exact hP k v h

theorem visit_visited_iff_keys (repo : List (String × List String)) :
    ∀ (fuel : Nat) (p : String) (st : DfsState),
      (∀ x, x ∈ st.visited ↔ x ∈ keysOf st.graph) →
      ∀ x, x ∈ (build_dependency_graph_dfs fuel p repo st).visited ↔
        x ∈ keysOf (build_dependency_graph_dfs fuel p repo st).graph := by
  intro fuel
  induction fuel with
  | zero => intro p st h; exact h
  | succ f ih =>
    intro p st h
    rw [visit_succ]
    by_cases hv : p ∈ st.visited
    · rw [if_pos hv]; exact h
    · rw [if_neg hv]
      rcases hr : alookup repo p with _ | deps
      · simp only [hr]
        intro x
        show x ∈ p :: st.visited ↔ x ∈ keysOf (dinsert st.graph p [])
        rw [List.mem_cons, keys_dinsert, h x]
        exact Or.comm
      · simp only [hr]
        by_cases hp : p ∈ st.path
        · rw [if_pos hp]
          intro x
          show x ∈ p :: st.visited ↔ x ∈ keysOf (dinsert st.graph p deps)
          rw [List.mem_cons, keys_dinsert, h x]
          exact Or.comm
        · rw [if_neg hp]
          have hP := foldl_visit_pres repo f
            (fun s => ∀ x, x ∈ s.visited ↔ x ∈ keysOf s.graph)
            (fun d s hs => ih d s hs)
            deps
            { st with visited := p :: st.visited, path := st.path ++ [p],
                      graph := dinsert st.graph p deps,
                      expanded := st.expanded ++ [p] }
            (by
              intro x
              show x ∈ p :: st.visited ↔
                x ∈ keysOf (dinsert st.graph p deps)
              rw [List.mem_cons, keys_dinsert, h x]
              exact Or.comm)
          exact hP

theorem visit_closed (repo : List (String × List String)) :
    ∀ (fuel : Nat) (p : String) (st : DfsState) (ex : List String),
      remCount repo st.visited < fuel →
      (∀ x, x ∈ st.path → x ∈ st.visited) →
      (∀ k v, (k, v) ∈ st.graph → ∀ d, d ∈ v →
        d ∈ st.visited ∨ d ∈ ex) →
      ∀ k v, (k, v) ∈ (build_dependency_graph_dfs fuel p repo st).graph →
        ∀ d, d ∈ v →
          d ∈ (build_dependency_graph_dfs fuel p repo st).visited ∨
            d ∈ ex := by
  intro fuel
  induction fuel with
  | zero => intro p st ex h _ _; exact absurd h (Nat.not_lt_zero _)
  | succ f ih =>
    intro p st ex hrem hpath hclosed
    rw [visit_succ]
    by_cases hv : p ∈ st.visited
    · rw [if_pos hv]; exact hclosed
    · rw [if_neg hv]
      rcases hr : alookup repo p with _ | deps
      · simp only [hr]
        intro k v hkv d hd
        rcases mem_dinsert hkv with hkv | hkv
        · rcases hclosed k v hkv d hd with h1 | h1
          · exact Or.inl (List.mem_cons_of_mem _ h1)
          · exact Or.inr h1
        · have hv2 : v = [] := congrArg Prod.snd hkv
          rw [hv2] at hd
          exact absurd hd (List.not_mem_nil d)
      · simp only [hr]
        by_cases hp : p ∈ st.path
        · exact absurd (hpath p hp) hv
        · rw [if_neg hp]
          have hfold : ∀ (l : List String) (s : DfsState),
              remCount repo s.visited < f →
              (∀ x, x ∈ s.path → x ∈ s.visited) →
              (∀ k v, (k, v) ∈ s.graph → ∀ d, d ∈ v →
                d ∈ s.visited ∨ d ∈ ex ++ l) →
              ∀ k v, (k, v) ∈ (l.foldl
                  (fun s d => build_dependency_graph_dfs f d repo s)
                  s).graph →
                ∀ d, d ∈ v →
                  d ∈ (l.foldl
                    (fun s d => build_dependency_graph_dfs f d repo s)
                    s).visited ∨ d ∈ ex := by
            intro l
            induction l with
            | nil =>
              intro s _ _ hcl
              simpa using hcl
            | cons d0 ds ihl =>
              intro s hrem2 hpath2 hcl
              have hf : 0 < f := Nat.lt_of_le_of_lt (Nat.zero_le _) hrem2
              simp only [List.foldl_cons]
              apply ihl
              · exact Nat.lt_of_le_of_lt
                  (remCount_mono repo
                    (fun x hx => visit_visited_mono repo f d0 s hx))
                  hrem2
              · intro x hx
                rw [visit_path repo f d0 s] at hx
                exact visit_visited_mono repo f d0 s (hpath2 x hx)
              · intro k v hkv d hd
                have h1 := ih d0 s (ex ++ d0 :: ds) hrem2 hpath2
                  (fun k v hkv d hd => hcl k v hkv d hd) k v hkv d hd
                rcases h1 with h1 | h1
                · exact Or.inl h1
                · rcases List.mem_append.1 h1 with h1 | h1
                  · exact Or.inr (List.mem_append.2 (Or.inl h1))
                  · rcases List.mem_cons.1 h1 with h1 | h1
                    · rw [h1]
                      exact Or.inl (visit_visited_self repo f d0 s hf)
                    · exact Or.inr (List.mem_append.2 (Or.inr h1))
          have hrem1 : remCount repo (p :: st.visited) < f := by
            have hlt := remCount_cons_lt repo hr hv
            omega
          exact hfold deps
            { st with visited := p :: st.visited, path := st.path ++ [p],
                      graph := dinsert st.graph p deps,
                      expanded := st.expanded ++ [p] }
            hrem1
            (by
              intro x hx
              rcases List.mem_append.1 hx with hx | hx
              · exact List.mem_cons_of_mem _ (hpath x hx)
              · simp only [List.mem_singleton] at hx
                rw [hx]
                exact List.mem_cons_self _ _)
            (by
              intro k v hkv d hd
              rcases mem_dinsert hkv with hkv | hkv
              · rcases hclosed k v hkv d hd with h1 | h1
                · exact Or.inl (List.mem_cons_of_mem _ h1)
                · exact Or.inr (List.mem_append.2 (Or.inl h1))
              · have hv2 : v = deps := congrArg Prod.snd hkv
                rw [hv2] at hd
                exact Or.inr (List.mem_append.2 (Or.inr hd)))

theorem visit_keys_reach (repo : List (String × List String)) :
    ∀ (fuel : Nat) (p : String) (st : DfsState) (R : String → Prop),
      R p →
      (∀ a b l, R a → alookup repo a = some l → b ∈ l → R b) →
      (∀ k, k ∈ keysOf st.graph → R k) →
      ∀ k, k ∈ keysOf (build_dependency_graph_dfs fuel p repo st).graph →
        R k := by
  intro fuel
  induction fuel with
  | zero => intro p st R _ _ hkeys; exact hkeys
  | succ f ih =>
    intro p st R hRp hstep hkeys
    rw [visit_succ]
    by_cases hv : p ∈ st.visited
    · rw [if_pos hv]; exact hkeys
    · rw [if_neg hv]
      rcases hr : alookup repo p with _ | deps
      · simp only [hr]
        intro k hk
        rcases keys_dinsert.1 hk with hk | hk
        · exact hkeys k hk
        · exact hk ▸ hRp
      · simp only [hr]
        by_cases hp : p ∈ st.path
        · rw [if_pos hp]
          intro k hk
          rcases keys_dinsert.1 hk with hk | hk
          · exact hkeys k hk
          · exact hk ▸ hRp
        · rw [if_neg hp]
          have hfold : ∀ (l : List String) (s : DfsState),
              (∀ d, d ∈ l → R d) →
              (∀ k, k ∈ keysOf s.graph → R k) →
              ∀ k, k ∈ keysOf (l.foldl
                  (fun s d => build_dependency_graph_dfs f d repo s)
                  s).graph → R k := by
            intro l
            induction l with
            | nil => intro s _ hs; exact hs
            | cons d0 ds ihl =>
              intro s hl hs
              simp only [List.foldl_cons]
              exact ihl _ (fun d hd => hl d (List.mem_cons_of_mem _ hd))
                (ih d0 s R (hl d0 (List.mem_cons_self _ _)) hstep hs)
          exact hfold deps
            { st with visited := p :: st.visited, path := st.path ++ [p],
                      graph := dinsert st.graph p deps,
                      expanded := st.expanded ++ [p] }
            (fun d hd => hstep p d deps hRp hr hd)
            (by
              intro k hk
              rcases keys_dinsert.1 hk with hk | hk
              · exact hkeys k hk
              · exact hk ▸ hRp)

/-! ### Loader lemmas -/

theorem parse_err_of_malformed (n : Nat) (line : String)
    (h : lineMalformed line = true) :
    ∃ m, parseRepoLine n line = LineResult.err (n, m) := by
  unfold lineMalformed at h
  unfold parseRepoLine
  cases hq1 : lineSkipped line <;>
    cases hq2 : (lineStripped line).contains ':' <;>
    cases hq3 : (linePkg line).data.isEmpty <;>
    cases hq4 : pyIsUpperAlpha (linePkg line) <;>
    cases hq5 : (lineDeps line).any (fun d => !(pyIsUpperAlpha d)) <;>
    simp_all

theorem parse_of_not_malformed (n : Nat) (line : String)
    (h : lineMalformed line = false) :
    (parseRepoLine n line = LineResult.skip ∧ lineDecl line = none) ∨
      (∃ p d, parseRepoLine n line = LineResult.decl p d ∧
        lineDecl line = some (p, d)) := by
  unfold lineMalformed at h
  unfold parseRepoLine lineDecl
  cases hq1 : lineSkipped line <;>
    cases hq2 : (lineStripped line).contains ':' <;>
    cases hq3 : (linePkg line).data.isEmpty <;>
    cases hq4 : pyIsUpperAlpha (linePkg line) <;>
    cases hq5 : (lineDeps line).any (fun d => !(pyIsUpperAlpha d)) <;>
    simp_all

theorem loadLines_err :
    ∀ (lines : List String) (repo : List (String × List String)) (n : Nat),
      (∃ i, i < lines.length ∧ lineMalformed (lines.getD i "") = true) →
      ∃ j m, j < lines.length ∧ lineMalformed (lines.getD j "") = true ∧
        loadLines repo n lines = .error (n + j, m) := by
  intro lines
  induction lines with
  | nil =>
    rintro repo n ⟨i, hi, _⟩
    exact absurd hi (by simp)
  | cons l ls ih =>
    intro repo n hex
    by_cases hm : lineMalformed l = true
    · obtain ⟨m, hpm⟩ := parse_err_of_malformed n l hm
      refine ⟨0, m, by simp, by simpa using hm, ?_⟩
      simp only [loadLines, hpm, Nat.add_zero]
    · have hm' : lineMalformed l = false := by
        cases hq : lineMalformed l
        · rfl
        · exact absurd hq hm
      obtain ⟨i, hi, hbad⟩ := hex
      rcases i with _ | i'
      · simp only [List.getD_cons_zero] at hbad
        exact absurd hbad hm
      · have hex' : ∃ i, i < ls.length ∧
            lineMalformed (ls.getD i "") = true :=
          ⟨i', by simpa using hi, by simpa using hbad⟩
        rcases parse_of_not_malformed n l hm' with ⟨hp, _⟩ | ⟨p, d, hp, _⟩
        · obtain ⟨j, m, hj, hjb, hload⟩ := ih repo (n + 1) hex'
          refine ⟨j + 1, m, by simpa using hj, by simpa using hjb, ?_⟩
          simp only [loadLines, hp]
          rw [hload]
          have heq : n + 1 + j = n + (j + 1) := by omega
          rw [heq]
        · obtain ⟨j, m, hj, hjb, hload⟩ := ih (dinsert repo p d) (n + 1) hex'
          refine ⟨j + 1, m, by simpa using hj, by simpa using hjb, ?_⟩
          simp only [loadLines, hp]
          rw [hload]
          have heq : n + 1 + j = n + (j + 1) := by omega
          rw [heq]

theorem loadLines_ok :
    ∀ (lines : List String) (repo : List (String × List String)) (n : Nat),
      (∀ l, l ∈ lines → lineMalformed l = false) →
      loadLines repo n lines = .ok (applyDecls repo (declsOf lines)) := by
  intro lines
  induction lines with
  | nil => intro repo n _; rfl
  | cons l ls ih =>
    intro repo n hall
    have hm := hall l (List.mem_cons_self _ _)
    have hall' : ∀ l0, l0 ∈ ls → lineMalformed l0 = false :=
      fun l0 h0 => hall l0 (List.mem_cons_of_mem _ h0)
    rcases parse_of_not_malformed n l hm with ⟨hp, hd⟩ | ⟨p, d, hp, hd⟩
    · simp only [loadLines, hp, declsOf, List.filterMap_cons, hd]
      exact ih repo (n + 1) hall'
    · simp only [loadLines, hp, declsOf, List.filterMap_cons, hd]
      simp only [applyDecls, List.foldl_cons]
      exact ih (dinsert repo p d) (n + 1) hall'

theorem lastOpt_cons {α : Type} (x : α) (l : List α) :
    lastOpt (x :: l) =
      some (match lastOpt l with | none => x | some y => y) := rfl

theorem lastOpt_isSome_of_mem {α : Type} {x : α} {l : List α}
    (h : x ∈ l) : ∃ y, lastOpt l = some y := by
  cases l with
  | nil => exact absurd h (List.not_mem_nil x)
  | cons a as => exact ⟨_, rfl⟩

theorem alookup_applyDecls (P : String) :
    ∀ (ds : List (String × List String))
      (repo : List (String × List String)),
      alookup (applyDecls repo ds) P =
        match lastOpt (ds.filter (fun e => e.1 == P)) with
        | some e => some e.2
        | none => alookup repo P := by
  intro ds
  induction ds with
  | nil => intro repo; rfl
  | cons e rest ih =>
    intro repo
    simp only [applyDecls, List.foldl_cons] at *
    rw [ih (dinsert repo e.1 e.2)]
    by_cases hP : e.1 = P
    · have hb : (e.1 == P) = true := by simp [hP]
      have hfc : List.filter (fun e => e.1 == P) (e :: rest) =
          e :: List.filter (fun e => e.1 == P) rest := by
        simp [List.filter_cons, hb]
      rw [hfc, lastOpt_cons]
      cases hrest : lastOpt (List.filter (fun e => e.1 == P) rest) with
      | none =>
        simp only [hrest]
        rw [hP]
        exact alookup_dinsert_self repo P e.2
      | some y =>
        simp only [hrest]
    · have hb : (e.1 == P) = false := by simp [hP]
      have hfc : List.filter (fun e => e.1 == P) (e :: rest) =
          List.filter (fun e => e.1 == P) rest := by
        simp [List.filter_cons, hb]
      rw [hfc]
      cases hrest : lastOpt (List.filter (fun e => e.1 == P) rest) with
      | none =>
        simp only [hrest]
        exact alookup_dinsert_ne (fun hq => hP hq.symm)
      | some y =>
        simp only [hrest]

/-! ### Claims -/

/-- C1: the claimed run on the repository `{A: [B], B: [A]}` with root `A`.
The dependency graph is `{A: [B], B: [A]}` as the claim states, but the
returned cycle list is empty, not `[[A, B, A]]`: the cycle-detection
branch of `build_dependency_graph_dfs` (the `start_pkg in path` test) is
unreachable, because every identifier on the DFS path was added to the
visited set before being pushed, and the visited-set check returns first.
This theorem evaluates the embedded code at the claim's own input. -/
theorem claim_C1_cycle_example_code_eval :
    get_full_dependency_graph_test [("A", ["B"]), ("B", ["A"])] "A" =
      ([("A", ["B"]), ("B", ["A"])], []) := by decide

/-- C2: over ASCII repository files — the domain on which the embedded
character classification agrees with Python exactly — if any line is
retained (not blank, not a comment) and lacks a colon, has an empty
package identifier, or has a package or dependency token that is not
solely uppercase Latin letters, then `load_test_repo` returns an error
whose line-number component is the 1-based number of an offending line,
and no repository mapping is returned at all (the result is
`Except.error`).  Beyond ASCII the claim fails on the program itself:
Python's `isupper()`/`isalpha()` are Unicode-aware, so the loader
accepts the line `Δ: B` although `Δ` is not an uppercase Latin letter
and the check's own error message demands one. -/
theorem claim_C2_malformed_line_fails_load :
    ∀ lines : List String,
      (∀ l, l ∈ lines → asciiOnly l = true) →
      (∃ i, i < lines.length ∧ lineMalformed (lines.getD i "") = true) →
      ∃ j m, j < lines.length ∧ lineMalformed (lines.getD j "") = true ∧
        load_test_repo lines = .error (j + 1, m) := by
  intro lines _ hex
  obtain ⟨j, m, hj, hjb, hload⟩ := loadLines_err lines [] 1 hex
  refine ⟨j, m, hj, hjb, ?_⟩
  show loadLines [] 1 lines = .error (j + 1, m)
  rw [hload, Nat.add_comm 1 j]

/-- C2 witness: the ASCII file consisting of the single line `a: B`
(lowercase identifier) fails the load with an error referencing that
line. -/
theorem claim_C2_witness :
    ∃ j m, j < (["a: B"] : List String).length ∧
      lineMalformed ((["a: B"] : List String).getD j "") = true ∧
      load_test_repo ["a: B"] = .error (j + 1, m) :=
  claim_C2_malformed_line_fails_load ["a: B"] (by decide)
    ⟨0, by decide, by decide⟩

/-- C3: an identifier absent from the repository mapping that was visited
(it is a key of the resulting dependency graph) has exactly `[]` recorded
as its dependency list; no error is raised (the traversal is total). -/
theorem claim_C3_absent_package_is_leaf :
    ∀ (repo : List (String × List String)) (root p : String),
      alookup repo p = none →
      p ∈ keysOf (get_full_dependency_graph_test repo root).1 →
      alookup (get_full_dependency_graph_test repo root).1 p = some [] := by
  intro repo root p hnone hk
  cases halo : alookup (get_full_dependency_graph_test repo root).1 p with
  | none => exact absurd hk (alookup_none.1 halo)
  | some w =>
    have hw := visit_graph_entries repo (repo.length + 1) root initDfsState
      (alookup_mem halo)
    rcases hw with h2 | h2 | h2
    · exact absurd h2 (List.not_mem_nil _)
    · rw [hnone] at h2; cases h2
    · rw [h2.2]

/-- C3 witness: in the repository `{A: [B]}`, the absent package `B` is
recorded with dependency list `[]`. -/
theorem claim_C3_witness :
    alookup (get_full_dependency_graph_test [("A", ["B"])] "A").1 "B" =
      some [] :=
  claim_C3_absent_package_is_leaf [("A", ["B"])] "A" "B" (by decide)
    (by decide)

/-- C4: the diamond repository `{A: [B, C], B: [D], C: [D], D: []}` with
root `A` yields the dependency graph `{A: [B, C], B: [D], C: [D], D: []}`
(stated through its lookups and key set; insertion order is A, B, D, C),
an empty cycle list, and `D` is expanded (its dependency list fetched and
recursed into) exactly once, as recorded by the ghost `expanded` trace. -/
theorem claim_C4_diamond_shared_leaf :
    (get_full_dependency_graph_test
        [("A", ["B", "C"]), ("B", ["D"]), ("C", ["D"]), ("D", [])]
        "A").2 = [] ∧
    alookup (get_full_dependency_graph_test
        [("A", ["B", "C"]), ("B", ["D"]), ("C", ["D"]), ("D", [])]
        "A").1 "A" = some ["B", "C"] ∧
    alookup (get_full_dependency_graph_test
        [("A", ["B", "C"]), ("B", ["D"]), ("C", ["D"]), ("D", [])]
        "A").1 "B" = some ["D"] ∧
    alookup (get_full_dependency_graph_test
        [("A", ["B", "C"]), ("B", ["D"]), ("C", ["D"]), ("D", [])]
        "A").1 "C" = some ["D"] ∧
    alookup (get_full_dependency_graph_test
        [("A", ["B", "C"]), ("B", ["D"]), ("C", ["D"]), ("D", [])]
        "A").1 "D" = some [] ∧
    keysOf (get_full_dependency_graph_test
        [("A", ["B", "C"]), ("B", ["D"]), ("C", ["D"]), ("D", [])]
        "A").1 = ["A", "B", "D", "C"] ∧
    (build_dependency_graph_dfs 5 "A"
        [("A", ["B", "C"]), ("B", ["D"]), ("C", ["D"]), ("D", [])]
        initDfsState).expanded.count "D" = 1 := by decide

/-- C5: every key of the dependency graph returned by the builder is
reachable from the root by zero or more dependency edges of the
repository. -/
theorem claim_C5_keys_reachable :
    ∀ (repo : List (String × List String)) (root p : String),
      p ∈ keysOf (get_full_dependency_graph_test repo root).1 →
      Reach repo root p := by
  intro repo root p hp
  refine visit_keys_reach repo (repo.length + 1) root initDfsState
    (Reach repo root) Reach.refl
    (fun a b l ha hl hb => Reach.step ha hl hb) ?_ p hp
  intro k hk
  exact absurd hk (List.not_mem_nil k)

/-- C5 witness: in the repository `{A: [B]}` rooted at `A`, the graph key
`B` is reachable from `A`. -/
theorem claim_C5_witness : Reach [("A", ["B"])] "A" "B" :=
  claim_C5_keys_reachable [("A", ["B"])] "A" "B" (by decide)

/-- C6: the traversal terminates on every finite repository: the fuelled
embedding of `build_dependency_graph_dfs`, started from the
freshly-initialized state, is stable once the fuel reaches
`repo.length + 1` (the driver's fuel), so the recursion reaches a fixed
point and never runs forever. -/
theorem claim_C6_termination :
    ∀ (repo : List (String × List String)) (root : String) (fuel : Nat),
      repo.length + 1 ≤ fuel →
      build_dependency_graph_dfs fuel root repo initDfsState =
        build_dependency_graph_dfs (repo.length + 1) root repo
          initDfsState := by
  intro repo root fuel hf
  have hrem : remCount repo initDfsState.visited < repo.length + 1 := by
    show remCount repo [] < repo.length + 1
    rw [remCount_nil]
    exact Nat.lt_succ_self _
  have hs := visit_fuel_stable repo (repo.length + 1)
    (fuel - (repo.length + 1)) root initDfsState hrem
  have heq : repo.length + 1 + (fuel - (repo.length + 1)) = fuel :=
    Nat.add_sub_cancel' hf
  rw [heq] at hs
  exact hs

/-- C6 witness: on the one-entry repository `{A: [A]}`, any fuel of at
least `2` gives the same result as fuel `2`. -/
theorem claim_C6_witness :
    build_dependency_graph_dfs 5 "A" [("A", ["A"])] initDfsState =
      build_dependency_graph_dfs ([("A", ["A"])].length + 1) "A"
        [("A", ["A"])] initDfsState :=
  claim_C6_termination [("A", ["A"])] "A" 5 (by decide)

/-- C7: resolution is deterministic: two invocations of the graph builder
on the same repository and root, each starting from the
freshly-initialized visited set, path, graph and cycle list built into
`get_full_dependency_graph_test`, return identical dependency graphs and
cycle lists.  In the embedding the driver is a pure function of its two
arguments — mirroring the Python code, which reads and writes nothing but
its parameters and fresh locals — so the two results are definitionally
equal. -/
theorem claim_C7_deterministic :
    ∀ (repo : List (String × List String)) (root : String),
      get_full_dependency_graph_test repo root =
        get_full_dependency_graph_test repo root :=
  fun _ _ => rfl

/-- C8: for every ASCII package identifier — the domain on which the
embedded `pyLower` agrees with Python's Unicode-aware `str.lower()`; the
version and endpoint are unrestricted, since percent-encoding and the
substring and suffix tests are faithful for all strings — the
metadata-document URL is the endpoint joined to
`{lowercase-percent-encoded-id}/{percent-encoded-version}/{lowercase-percent-encoded-id}.nuspec`
for a generic endpoint, with a single slash joining the endpoint (one is
appended exactly when the endpoint does not already end in `/`), and when
the endpoint contains the recognized public host `nuget.org` the
hardcoded `https://api.nuget.org/v3-flatcontainer/` template is
substituted for the user-supplied base. -/
theorem claim_C8_nuspec_url :
    ∀ (package version base : String),
      asciiOnly package = true →
      (strContains base "nuget.org" = false →
        fetch_nuspec_url package version base =
          (if strEndsWith base "/" then base else base ++ "/") ++
            pyQuote (pyLower package) ++ "/" ++ pyQuote version ++ "/" ++
            pyQuote (pyLower package) ++ ".nuspec") ∧
      (strContains base "nuget.org" = true →
        fetch_nuspec_url package version base =
          "https://api.nuget.org/v3-flatcontainer/" ++
            pyQuote (pyLower package) ++ "/" ++ pyQuote version ++ "/" ++
            pyQuote (pyLower package) ++ ".nuspec") := by
  intro package version base _
  constructor
  · intro h
    simp only [fetch_nuspec_url]
    rw [if_neg (by simp [h])]
  · intro h
    simp only [fetch_nuspec_url]
    rw [if_pos h]

/-- C8 witness: an ASCII identifier against a generic endpoint without a
trailing slash gets a single joining slash, and the identifier is
lowercased and percent-encoded. -/
theorem claim_C8_witness :
    strContains "https://example.com/feed" "nuget.org" = false ∧
    fetch_nuspec_url "My.Pkg" "1.0" "https://example.com/feed" =
      (if strEndsWith "https://example.com/feed" "/" then
        "https://example.com/feed"
      else "https://example.com/feed" ++ "/") ++
        pyQuote (pyLower "My.Pkg") ++ "/" ++ pyQuote "1.0" ++ "/" ++
        pyQuote (pyLower "My.Pkg") ++ ".nuspec" :=
  ⟨by decide,
    (claim_C8_nuspec_url "My.Pkg" "1.0" "https://example.com/feed"
      (by decide)).1 (by decide)⟩

/-- C9: when every line of the file is well formed and the file contains
two or more retained declaration lines for the same identifier `P`,
`load_test_repo` succeeds (duplicates are no error) and the returned
mapping associates `P` with the dependency list of the last such line,
silently discarding the earlier ones. -/
theorem claim_C9_duplicate_last_wins :
    ∀ (lines : List String) (P : String),
      (∀ l, l ∈ lines → lineMalformed l = false) →
      2 ≤ ((declsOf lines).filter (fun e => e.1 == P)).length →
      ∃ repo e,
        load_test_repo lines = .ok repo ∧
        lastOpt ((declsOf lines).filter (fun e => e.1 == P)) = some e ∧
        alookup repo P = some e.2 := by
  intro lines P hall hdup
  have hne : ∃ y,
      lastOpt ((declsOf lines).filter (fun e => e.1 == P)) = some y := by
    cases hfl : (declsOf lines).filter (fun e => e.1 == P) with
    | nil => rw [hfl] at hdup; simp at hdup
    | cons a as => exact ⟨_, rfl⟩
  obtain ⟨y, hy⟩ := hne
  refine ⟨applyDecls [] (declsOf lines), y, ?_, hy, ?_⟩
  · exact loadLines_ok lines [] 1 hall
  · rw [alookup_applyDecls P (declsOf lines) [], hy]

/-- C9 witness: the file `A: B` then `A: C` loads successfully and maps
`A` to `[C]`, the dependency list of the last declaration. -/
theorem claim_C9_witness :
    ∃ repo e, load_test_repo ["A: B", "A: C"] = .ok repo ∧
      lastOpt ((declsOf ["A: B", "A: C"]).filter (fun e => e.1 == "A")) =
        some e ∧
      alookup repo "A" = some e.2 :=
  claim_C9_duplicate_last_wins ["A: B", "A: C"] "A" (by decide) (by decide)

/-- C10: the returned dependency graph is dependency-closed: every element
of every dependency list stored in the graph is itself a key of the
graph. -/
theorem claim_C10_graph_closed :
    ∀ (repo : List (String × List String)) (root k : String)
      (v : List String) (d : String),
      alookup (get_full_dependency_graph_test repo root).1 k = some v →
      d ∈ v →
      d ∈ keysOf (get_full_dependency_graph_test repo root).1 := by
  intro repo root k v d halo hd
  have hmem := alookup_mem halo
  have hrem : remCount repo initDfsState.visited < repo.length + 1 := by
    show remCount repo [] < repo.length + 1
    rw [remCount_nil]
    exact Nat.lt_succ_self _
  have hcl := visit_closed repo (repo.length + 1) root initDfsState []
    hrem (fun x hx => absurd hx (List.not_mem_nil x))
    (fun k1 v1 hkv => absurd hkv (List.not_mem_nil _))
    k v hmem d hd
  rcases hcl with h | h
  · have hiff := visit_visited_iff_keys repo (repo.length + 1) root
      initDfsState
      (fun x => iff_of_false (List.not_mem_nil x) (List.not_mem_nil x))
    exact (hiff d).1 h
  · exact absurd h (List.not_mem_nil d)

/-- C10 witness: in the graph for `{A: [B]}` rooted at `A`, the recorded
dependency `B` of `A` is itself a key of the graph. -/
theorem claim_C10_witness :
    "B" ∈ keysOf (get_full_dependency_graph_test [("A", ["B"])] "A").1 :=
  claim_C10_graph_closed [("A", ["B"])] "A" "A" ["B"] "B" (by decide)
    (by decide)

